import Mathlib

/-!
Verification development for the trade-logging core of the repository
(`TradeLogger.ts`): the fill-to-round-trip reconstruction engine, the
account classifier, the daily aggregation helpers and the CSV fill
normalizer.

Modelling conventions (shallow embedding of the TypeScript source):

* JavaScript numbers are modelled as `ℚ` (prices, fees, P&L) and `ℤ`
  (share quantities produced by `parseInt`).  `Math.round` rounds half
  toward `+∞`, i.e. `⌊x + 1/2⌋`.
* Time strings `"HH:MM:SS"` are modelled as parsed triples `Hms`; the
  `split(":")`/`parseInt` plumbing of `timeToMinutes` is string I/O and
  the arithmetic `h*60 + m + s/60` is kept exactly.
* `Array.prototype.sort` with comparator `(a, b) => key a - key b` is a
  stable sort ascending by `key`; it is embedded as
  `List.insertionSort` on `key a ≤ key b`, which is the stable sort.
* JavaScript `Map` / `Set` iterate in insertion order; grouping by a key
  is embedded as the list of first occurrences of the keys
  (`firstOcc`) together with `List.filter` for each key's bucket.
* `a.startsWith(p)` and `key.split("|")[0]` are embedded structurally
  on the character lists of the strings (`jsStartsWith`, `symOf`).
* The filesystem lookup `findChartFile` (an external collaborator) is
  abstracted as a function `chartOf : String → Option String` from the
  symbol to an optional chart file name, fixed for a run.
-/

namespace TradeLogger

/-- JavaScript `Math.round`: round half toward positive infinity. -/
def jround (q : ℚ) : ℤ := ⌊q + 1/2⌋

/-- The source's `round2`: `Math.round(n * 100) / 100`. -/
def round2 (q : ℚ) : ℚ := (jround (q * 100) : ℚ) / 100

/-- JavaScript `s.startsWith(p)`, embedded on the character data. -/
def jsStartsWith (s p : String) : Bool := p.data.isPrefixOf s.data

/-- A parsed `"HH:MM:SS"` time-of-day value. -/
structure Hms where
  hh : ℕ
  mm : ℕ
  ss : ℕ
deriving DecidableEq, Repr

/-- The source's `timeToMinutes`: `h*60 + m + s/60` on the parsed parts. -/
def timeToMinutes (t : Hms) : ℚ := t.hh * 60 + t.mm + (t.ss : ℚ) / 60

/-- Canonical execution record (the source's `Fill` interface).  The
`side` is kept as the raw string (the source casts it unchecked), with
`"B"`, `"S"`, `"SS"` the documented values. -/
structure Fill where
  time : Hms
  symbol : String
  side : String
  price : ℚ
  qty : ℤ
  route : String
  account : String
  liqType : String
  ecnFee : ℚ
  pnl : ℚ
deriving DecidableEq

/-- Signed quantity of a fill as used by the position tracker: a Buy
adds `qty`, anything else (S or SS) subtracts it. -/
def signedQty (f : Fill) : ℤ := if f.side = "B" then f.qty else -f.qty

/-- Trade direction (the source's `"long" | "short"`). -/
inductive Dir where
  | long
  | short
deriving DecidableEq, Repr

/-- Account classification (the source's `"live" | "training" | "mixed"`). -/
inductive AccountType where
  | live
  | training
  | mixed
deriving DecidableEq, Repr

/-- The source's `RoundTrip` record. -/
structure RoundTrip where
  id : String
  ticker : String
  side : Dir
  entry_avg : ℚ
  exit_avg : ℚ
  total_shares : ℤ
  pnl : ℚ
  fees : ℚ
  net_pnl : ℚ
  fills : ℕ
  entry_time : Hms
  exit_time : Hms
  duration_mins : ℤ
  accounts : List String
  account_type : AccountType
  setup : Option String
  notes : Option String
  chart : Option String
deriving DecidableEq

/-- First occurrences of the elements of a list, in order: the key /
element sequence of a JavaScript `Map` / `Set` built by insertion. -/
def firstOccAux {α : Type} [DecidableEq α] (acc : List α) : List α → List α
  | [] => acc
  | k :: rest => if k ∈ acc then firstOccAux acc rest else firstOccAux (acc ++ [k]) rest

/-- First-occurrence deduplication (JavaScript `Set` iteration order). -/
def firstOcc {α : Type} [DecidableEq α] (l : List α) : List α := firstOccAux [] l

/-- Direction of a round trip, from its first fill. -/
def tripDir (f0 : Fill) : Dir := if f0.side = "B" then Dir.long else Dir.short

/-- Entry-side fills of a buffer: the fills matching the opening side. -/
def entryFills (fills : List Fill) : List Fill :=
  match fills with
  | [] => []
  | f0 :: _ =>
    fills.filter fun f =>
      match tripDir f0 with
      | Dir.long => f.side = "B"
      | Dir.short => f.side = "S" ∨ f.side = "SS"

/-- Exit-side fills of a buffer: the fills on the complementary side. -/
def exitFills (fills : List Fill) : List Fill :=
  match fills with
  | [] => []
  | f0 :: _ =>
    fills.filter fun f =>
      match tripDir f0 with
      | Dir.long => f.side = "S" ∨ f.side = "SS"
      | Dir.short => f.side = "B"

/-- Sum of `price * qty` over a fill list (the source's notional sums). -/
def notionalSum (l : List Fill) : ℚ := (l.map fun f => f.price * (f.qty : ℚ)).sum

/-- Sum of quantities over a fill list (the source's share sums). -/
def sharesSum (l : List Fill) : ℤ := (l.map Fill.qty).sum

/-- Body of `buildRoundTrip` for a non-empty buffer with head `f0`
(`fills` is the whole buffer, including `f0`). -/
def buildRoundTripCore (f0 : Fill) (fills : List Fill) (date sym : String)
    (chartOf : String → Option String) (tpfx : String) : RoundTrip :=
  let dir := tripDir f0
  let ef := entryFills fills
  let xf := exitFills fills
  let entryShares := sharesSum ef
  let exitShares := sharesSum xf
  let entry_avg := if 0 < entryShares then round2 (notionalSum ef / (entryShares : ℚ)) else 0
  let exit_avg := if 0 < exitShares then round2 (notionalSum xf / (exitShares : ℚ)) else 0
  let pnlv := round2 ((fills.map Fill.pnl).sum)
  let feesv := round2 ((fills.map fun f => |f.ecnFee|).sum)
  let entry_time := f0.time
  let exit_time := (fills.getLastD f0).time
  let duration := jround (timeToMinutes exit_time - timeToMinutes entry_time)
  let accounts := firstOcc (fills.map Fill.account)
  let hasTraining := accounts.any fun a => jsStartsWith a tpfx
  let hasLive := accounts.any fun a => !(jsStartsWith a tpfx)
  let account_type :=
    if hasTraining && hasLive then AccountType.mixed
    else if hasTraining then AccountType.training
    else AccountType.live
  { id := ""
    ticker := sym
    side := dir
    entry_avg := entry_avg
    exit_avg := exit_avg
    total_shares := max entryShares exitShares
    pnl := pnlv
    fees := feesv
    net_pnl := round2 pnlv
    fills := fills.length
    entry_time := entry_time
    exit_time := exit_time
    duration_mins := max duration 0
    accounts := accounts
    account_type := account_type
    setup := none
    notes := none
    chart := chartOf sym }

/-- The source's `buildRoundTrip`: `null` on an empty buffer, otherwise
the record built from the buffer.  The unused `date` parameter is kept
from the source signature (it only feeds the chart lookup there). -/
def buildRoundTrip (fills : List Fill) (date sym : String)
    (chartOf : String → Option String) (tpfx : String) : Option RoundTrip :=
  match fills with
  | [] => none
  | f0 :: rest => some (buildRoundTripCore f0 (f0 :: rest) date sym chartOf tpfx)

/-- Per-group scan of `groupFillsIntoRoundTrips`: push the fill, update
the signed position, emit the buffer whenever the position returns to
zero, and emit any leftover buffer at end of day.  The end-of-day call
in the source omits the training-account argument, so it falls back to
the default literal `"TR"`. -/
def groupTripsGo (date sym : String) (chartOf : String → Option String) (tpfx : String) :
    List Fill → ℤ → List Fill → List RoundTrip
  | [], _, cur =>
    if cur = [] then [] else (buildRoundTrip cur date sym chartOf "TR").toList
  | f :: rest, pos, cur =>
    let cur2 := cur ++ [f]
    let pos2 := pos + signedQty f
    if pos2 = 0 ∧ cur2 ≠ [] then
      (buildRoundTrip cur2 date sym chartOf tpfx).toList ++ groupTripsGo date sym chartOf tpfx rest 0 []
    else
      groupTripsGo date sym chartOf tpfx rest pos2 cur2

/-- Round trips of one `(symbol, account)` group, in emission order. -/
def groupTrips (g : List Fill) (date sym : String)
    (chartOf : String → Option String) (tpfx : String) : List RoundTrip :=
  groupTripsGo date sym chartOf tpfx g 0 []

/-- Specification-side segmentation of the per-group scan: the list of
closed (position back to zero) buffers and the trailing open buffer. -/
def splitAux : List Fill → ℤ → List Fill → List (List Fill) × List Fill
  | [], _, cur => ([], cur)
  | f :: rest, pos, cur =>
    let cur2 := cur ++ [f]
    let pos2 := pos + signedQty f
    if pos2 = 0 ∧ cur2 ≠ [] then
      ((cur2 :: (splitAux rest 0 []).1, (splitAux rest 0 []).2) : List (List Fill) × List Fill)
    else
      splitAux rest pos2 cur2

/-- Grouping key `symbol|account` of a fill. -/
def fillKey (f : Fill) : String := f.symbol ++ "|" ++ f.account

/-- JavaScript `key.split("|")[0]`: the characters before the first bar. -/
def symOf (k : String) : String := String.mk (k.data.takeWhile fun c => c ≠ '|')

/-- Sort-by-time relation on fills (the ingest comparator). -/
def fillLE (a b : Fill) : Prop := timeToMinutes a.time ≤ timeToMinutes b.time

instance : DecidableRel fillLE :=
  fun a b => inferInstanceAs (Decidable (timeToMinutes a.time ≤ timeToMinutes b.time))

instance : IsTotal Fill fillLE := ⟨fun a b => le_total _ _⟩

instance : IsTrans Fill fillLE := ⟨fun _ _ _ h1 h2 => le_trans h1 h2⟩

/-- Sort-by-entry-time relation on round trips. -/
def rtLE (a b : RoundTrip) : Prop := timeToMinutes a.entry_time ≤ timeToMinutes b.entry_time

instance : DecidableRel rtLE :=
  fun a b => inferInstanceAs (Decidable (timeToMinutes a.entry_time ≤ timeToMinutes b.entry_time))

instance : IsTotal RoundTrip rtLE := ⟨fun a b => le_total _ _⟩

instance : IsTrans RoundTrip rtLE := ⟨fun _ _ _ h1 h2 => le_trans h1 h2⟩

/-- Chronological stable sort of the fills (step 1 of the algorithm). -/
def sortFills (fills : List Fill) : List Fill := List.insertionSort fillLE fills

/-- Group keys in first-appearance order (the `Map` insertion order). -/
def keyList (l : List Fill) : List String := firstOcc (l.map fillKey)

/-- The bucket of a group key: the fills with that key, in list order. -/
def groupFor (l : List Fill) (k : String) : List Fill := l.filter fun f => fillKey f = k

/-- Symbols in first-appearance order over the group keys. -/
def symList (l : List Fill) : List String := firstOcc ((keyList l).map symOf)

/-- All round trips of one symbol, concatenated over its account groups
in group order (the `symbolRoundTrips` map of the source). -/
def tripsForSymbol (l : List Fill) (date : String) (chartOf : String → Option String)
    (tpfx s : String) : List RoundTrip :=
  (((keyList l).filter fun k => symOf k = s).map fun k =>
    groupTrips (groupFor l k) date (symOf k) chartOf tpfx).flatten

/-- Replace the id of a round trip (the source's `rt.id = ...`). -/
def setTripId (rt : RoundTrip) (i : String) : RoundTrip := { rt with id := i }

/-- The id string `date-symbol-n`. -/
def mkId (date sym : String) (n : ℕ) : String := date ++ "-" ++ sym ++ "-" ++ toString n

/-- Assign ids `date-symbol-n`, `n` counting up from the first argument. -/
def assignIds (date sym : String) : ℕ → List RoundTrip → List RoundTrip
  | _, [] => []
  | n, rt :: rest => setTripId rt (mkId date sym n) :: assignIds date sym (n + 1) rest

/-- One symbol's round trips sorted by entry time with ids assigned
(1-based), as in the source's per-symbol pass. -/
def symbolTripsSorted (l : List Fill) (date : String) (chartOf : String → Option String)
    (tpfx s : String) : List RoundTrip :=
  assignIds date s 1 (List.insertionSort rtLE (tripsForSymbol l date chartOf tpfx s))

/-- The source's `groupFillsIntoRoundTrips`: sort the fills, group by
`(symbol, account)`, scan each group, regroup per symbol, sort and
number each symbol's trips, concatenate, and sort everything by entry
time. -/
def groupFillsIntoRoundTrips (fills : List Fill) (date : String)
    (chartOf : String → Option String) (tpfx : String) : List RoundTrip :=
  List.insertionSort rtLE
    (((symList (sortFills fills)).map fun s =>
      symbolTripsSorted (sortFills fills) date chartOf tpfx s).flatten)

/-- A raw CSV record after the external `csv-parse` step, pre-validation
(the loop body of `parseFillsCsv`).  `none` models a missing cell, and
for `time` also a blank one (time cells are kept as parsed `Hms`
triples; the `trim`/`split` character plumbing is external I/O).  For
`price`/`qty`, `none` models a `NaN` result of `parseFloat`/`parseInt`. -/
structure RawRow where
  time : Option Hms
  symbol : Option String
  side : Option String
  price : Option ℚ
  qty : Option ℤ
  route : Option String
  account : Option String
  liqType : Option String
  ecnFee : Option ℚ
  pnl : Option ℚ
deriving DecidableEq

/-- The validation test of the `parseFillsCsv` loop:
`!time || !symbol || !side || isNaN(price) || isNaN(qty)` skips the row
(a blank string is falsy, so `getD ""` captures missing-or-blank). -/
def rowKept (r : RawRow) : Bool :=
  r.time.isSome && !(r.symbol.getD "" == "") && !(r.side.getD "" == "")
    && r.price.isSome && r.qty.isSome

/-- The fill built from a kept row, with the source's `|| ""` / `|| 0`
defaults for the optional columns (the defaults on the five validated
fields are dead, since a kept row has them present). -/
def mkFillD (r : RawRow) : Fill :=
  { time := r.time.getD ⟨0, 0, 0⟩
    symbol := r.symbol.getD ""
    side := r.side.getD ""
    price := r.price.getD 0
    qty := r.qty.getD 0
    route := r.route.getD ""
    account := r.account.getD ""
    liqType := r.liqType.getD ""
    ecnFee := r.ecnFee.getD 0
    pnl := r.pnl.getD 0 }

/-- The source's `parseFillsCsv` loop: skip invalid rows (`continue`),
push a canonical fill for every other row. -/
def parseFillsCsv : List RawRow → List Fill
  | [] => []
  | r :: rest => if rowKept r then mkFillD r :: parseFillsCsv rest else parseFillsCsv rest

/-- The source's `AccountBreakdown` record. -/
structure AccountBreakdown where
  trades : ℕ
  pnl : ℚ
  winners : ℕ
  losers : ℕ
  win_rate : ℚ
deriving DecidableEq

/-- The result record of `computeAccountBreakdown`. -/
structure ByAccount where
  live : AccountBreakdown
  training : AccountBreakdown
deriving DecidableEq

/-- The source's `computeAccountBreakdown`: mixed trades count toward
the live bucket (trade count, P&L, winners, losers, win rate); the
training bucket is over the training trades only. -/
def computeAccountBreakdown (trades : List RoundTrip) : ByAccount :=
  let live := trades.filter fun t => t.account_type = AccountType.live
  let training := trades.filter fun t => t.account_type = AccountType.training
  let mixed := trades.filter fun t => t.account_type = AccountType.mixed
  let liveAll := live ++ mixed
  let liveWin := (liveAll.filter fun t => 0 < t.net_pnl).length
  let livePnl := round2 ((liveAll.map RoundTrip.net_pnl).sum)
  let trainingWin := (training.filter fun t => 0 < t.net_pnl).length
  let trainingLose := (training.filter fun t => t.net_pnl < 0).length
  let trainingPnl := round2 ((training.map RoundTrip.net_pnl).sum)
  { live :=
      { trades := liveAll.length
        pnl := livePnl
        winners := liveWin
        losers := (liveAll.filter fun t => t.net_pnl < 0).length
        win_rate := if 0 < liveAll.length then round2 ((liveWin : ℚ) / (liveAll.length : ℚ) * 100) else 0 }
    training :=
      { trades := training.length
        pnl := trainingPnl
        winners := trainingWin
        losers := trainingLose
        win_rate := if 0 < training.length then round2 ((trainingWin : ℚ) / (training.length : ℚ) * 100) else 0 } }

/-- The summary block of a `DailyLog`. -/
structure DailySummary where
  total_pnl : ℚ
  total_fees : ℚ
  total_net_pnl : ℚ
  total_trades : ℕ
  winners : ℕ
  losers : ℕ
  breakeven : ℕ
  win_rate : ℚ
  symbols : List String
  by_account : ByAccount
deriving DecidableEq

/-- The daily summary computed inline by `cmdIngest` from the day's
round trips (lines building `dailyLog.summary`). -/
def ingestSummary (roundTrips : List RoundTrip) : DailySummary :=
  let totalPnl := round2 ((roundTrips.map RoundTrip.pnl).sum)
  let totalFees := round2 ((roundTrips.map RoundTrip.fees).sum)
  let winners := (roundTrips.filter fun rt => 0 < rt.net_pnl).length
  let losers := (roundTrips.filter fun rt => rt.net_pnl < 0).length
  let breakeven := (roundTrips.filter fun rt => rt.net_pnl = 0).length
  { total_pnl := totalPnl
    total_fees := totalFees
    total_net_pnl := round2 totalPnl
    total_trades := roundTrips.length
    winners := winners
    losers := losers
    breakeven := breakeven
    win_rate := if 0 < roundTrips.length then round2 ((winners : ℚ) / (roundTrips.length : ℚ) * 100) else 0
    symbols := firstOcc (roundTrips.map RoundTrip.ticker)
    by_account := computeAccountBreakdown roundTrips }

/-- The source's `buildSummaryFromTrades` (same computation as the
ingest summary; the `date` argument is unused in the summary fields). -/
def buildSummaryFromTrades (date : String) (trades : List RoundTrip) : DailySummary :=
  let totalPnl := round2 ((trades.map RoundTrip.pnl).sum)
  let totalFees := round2 ((trades.map RoundTrip.fees).sum)
  let winners := (trades.filter fun t => 0 < t.net_pnl).length
  let losers := (trades.filter fun t => t.net_pnl < 0).length
  let breakeven := (trades.filter fun t => t.net_pnl = 0).length
  { total_pnl := totalPnl
    total_fees := totalFees
    total_net_pnl := round2 totalPnl
    total_trades := trades.length
    winners := winners
    losers := losers
    breakeven := breakeven
    win_rate := if 0 < trades.length then round2 ((winners : ℚ) / (trades.length : ℚ) * 100) else 0
    symbols := firstOcc (trades.map RoundTrip.ticker)
    by_account := computeAccountBreakdown trades }

/-! ### Rounding lemmas -/

/-- Values that are a whole number of hundredths (cents). -/
def QCents (q : ℚ) : Prop := ∃ n : ℤ, q = (n : ℚ) / 100

theorem QCents.zero : QCents 0 := ⟨0, by norm_num⟩

theorem QCents.add {a b : ℚ} (ha : QCents a) (hb : QCents b) : QCents (a + b) := by
  obtain ⟨m, hm⟩ := ha
  obtain ⟨n, hn⟩ := hb
  exact ⟨m + n, by rw [hm, hn]; push_cast; ring⟩

theorem QCents.list_sum {l : List ℚ} (h : ∀ q ∈ l, QCents q) : QCents l.sum := by
  induction l with
  | nil => simpa using QCents.zero
  | cons a t ih =>
    rw [List.sum_cons]
    exact (h a (List.mem_cons_self a t)).add (ih fun q hq => h q (List.mem_cons_of_mem a hq))

/-- Rounding a whole number of cents is the identity. -/
theorem round2_of_cents {q : ℚ} (h : QCents q) : round2 q = q := by
  obtain ⟨n, hn⟩ := h
  subst hn
  have h100 : ((n : ℚ) / 100) * 100 = (n : ℚ) := by field_simp
  have hfl : jround ((n : ℚ)) = n := by
    unfold jround
    rw [Int.floor_int_add]
    norm_num
  unfold round2
  rw [h100]
  rw [show jround ((n : ℚ)) = n from hfl]

/-- The output of `round2` is a whole number of cents. -/
theorem round2_cents (q : ℚ) : QCents (round2 q) := ⟨jround (q * 100), rfl⟩

/-- Double rounding collapses: `round2 (round2 q) = round2 q`. -/
theorem round2_round2 (q : ℚ) : round2 (round2 q) = round2 q :=
  round2_of_cents (round2_cents q)

/-- Evaluation rule for `round2` at rational literals, with the floor
characterised by plain inequalities. -/
theorem round2_eval (q : ℚ) (n : ℤ) (h1 : (n : ℚ) ≤ q * 100 + 1/2)
    (h2 : q * 100 + 1/2 < n + 1) : round2 q = (n : ℚ) / 100 := by
  unfold round2 jround
  rw [Int.floor_eq_iff.mpr ⟨h1, by exact_mod_cast h2⟩]

/-! ### First-occurrence deduplication lemmas -/

theorem firstOccAux_mem {α : Type} [DecidableEq α] (l : List α) :
    ∀ (acc : List α) (x : α), x ∈ firstOccAux acc l ↔ x ∈ acc ∨ x ∈ l := by
  induction l with
  | nil => intro acc x; simp [firstOccAux]
  | cons k rest ih =>
    intro acc x
    by_cases hk : k ∈ acc
    · rw [firstOccAux, if_pos hk, ih]
      constructor
      · rintro (h | h)
        · exact Or.inl h
        · exact Or.inr (List.mem_cons_of_mem k h)
      · rintro (h | h)
        · exact Or.inl h
        · rcases List.mem_cons.mp h with h | h
          · exact Or.inl (h ▸ hk)
          · exact Or.inr h
    · rw [firstOccAux, if_neg hk, ih]
      simp only [List.mem_append, List.mem_singleton, List.mem_cons]
      tauto

theorem firstOccAux_nodup {α : Type} [DecidableEq α] (l : List α) :
    ∀ acc : List α, acc.Nodup → (firstOccAux acc l).Nodup := by
  induction l with
  | nil => intro acc h; simpa [firstOccAux] using h
  | cons k rest ih =>
    intro acc hacc
    by_cases hk : k ∈ acc
    · rw [firstOccAux, if_pos hk]; exact ih acc hacc
    · rw [firstOccAux, if_neg hk]
      refine ih (acc ++ [k]) ?_
      rw [List.nodup_append]
      exact ⟨hacc, List.nodup_singleton k,
        fun a ha hb => hk (by rwa [List.mem_singleton.mp hb] at ha)⟩

theorem firstOcc_mem {α : Type} [DecidableEq α] (l : List α) (x : α) :
    x ∈ firstOcc l ↔ x ∈ l := by
  unfold firstOcc
  rw [firstOccAux_mem]
  simp

theorem firstOcc_nodup {α : Type} [DecidableEq α] (l : List α) : (firstOcc l).Nodup :=
  firstOccAux_nodup l [] List.nodup_nil

/-! ### Sum bookkeeping lemmas -/

theorem sum_ite_not_mem {K : Type} [DecidableEq K] {M : Type} [AddCommMonoid M]
    (ks : List K) (k0 : K) (v : M) (h : k0 ∉ ks) :
    (ks.map fun k => if k0 = k then v else 0).sum = 0 := by
  induction ks with
  | nil => simp
  | cons k t ih =>
    have hne : k0 ≠ k := fun he => h (he ▸ List.mem_cons_self k t)
    have ht : k0 ∉ t := fun hm => h (List.mem_cons_of_mem k hm)
    simp [hne, ih ht]

theorem sum_ite_mem {K : Type} [DecidableEq K] {M : Type} [AddCommMonoid M]
    (ks : List K) (k0 : K) (v : M) (hnd : ks.Nodup) (hmem : k0 ∈ ks) :
    (ks.map fun k => if k0 = k then v else 0).sum = v := by
  induction ks with
  | nil => cases hmem
  | cons k t ih =>
    rcases List.mem_cons.mp hmem with h | h
    · subst h
      have : k0 ∉ t := (List.nodup_cons.mp hnd).1
      simp [sum_ite_not_mem t k0 v this]
    · have hne : k0 ≠ k := by
        rintro rfl
        exact (List.nodup_cons.mp hnd).1 h
      simp only [List.map_cons, List.sum_cons, if_neg hne]
      rw [ih (List.nodup_cons.mp hnd).2 h, zero_add]

theorem sum_map_one {α : Type} (l : List α) : (l.map fun _ => (1 : ℕ)).sum = l.length := by
  induction l with
  | nil => rfl
  | cons a t ih => simp [ih, Nat.add_comm]

/-- Grouping a list by a key partitions it: summing any value over the
per-key buckets equals summing over the whole list. -/
theorem sum_filter_partition {α K : Type} [DecidableEq K] {M : Type} [AddCommMonoid M]
    (key : α → K) (g : α → M) (l : List α) (ks : List K) (hnd : ks.Nodup)
    (hcov : ∀ a ∈ l, key a ∈ ks) :
    (ks.map fun k => ((l.filter fun a => key a = k).map g).sum).sum = (l.map g).sum := by
  induction l with
  | nil => simp
  | cons a t ih =>
    have hstep : ∀ k : K, ((((a :: t).filter fun x => key x = k).map g)).sum
        = (if key a = k then g a else 0) + ((t.filter fun x => key x = k).map g).sum := by
      intro k
      by_cases h : key a = k
      · simp [List.filter_cons, h]
      · simp [List.filter_cons, h]
    calc (ks.map fun k => (((a :: t).filter fun x => key x = k).map g).sum).sum
        = (ks.map fun k => (if key a = k then g a else 0)
            + ((t.filter fun x => key x = k).map g).sum).sum := by
          exact congrArg List.sum (List.map_congr_left fun k _ => hstep k)
      _ = (ks.map fun k => if key a = k then g a else 0).sum
            + (ks.map fun k => ((t.filter fun x => key x = k).map g).sum).sum :=
          List.sum_map_add
      _ = g a + (t.map g).sum := by
          rw [sum_ite_mem ks (key a) (g a) hnd (hcov a (List.mem_cons_self a t)),
            ih fun x hx => hcov x (List.mem_cons_of_mem a hx)]
      _ = ((a :: t).map g).sum := by simp

/-- Summing a value over a flattened list of lists. -/
theorem sum_map_flatten {α : Type} {M : Type} [AddCommMonoid M]
    (g : α → M) (L : List (List α)) :
    ((L.flatten).map g).sum = (L.map fun x => (x.map g).sum).sum := by
  rw [List.map_flatten, List.sum_flatten, List.map_map]
  rfl

/-! ### Per-group scan lemmas -/

/-- The closed segments and the trailing open buffer reassemble the
scanned fills exactly. -/
theorem splitAux_flatten : ∀ (l : List Fill) (pos : ℤ) (cur : List Fill),
    ((splitAux l pos cur).1.flatten) ++ (splitAux l pos cur).2 = cur ++ l := by
  intro l
  induction l with
  | nil => intro pos cur; simp [splitAux]
  | cons f rest ih =>
    intro pos cur
    rw [splitAux]
    by_cases h : pos + signedQty f = 0 ∧ cur ++ [f] ≠ []
    · simp only [if_pos h, List.flatten_cons]
      rw [List.append_assoc, ih 0 []]
      simp
    · simp only [if_neg h]
      rw [ih (pos + signedQty f) (cur ++ [f])]
      simp

/-- Every closed segment of the scan has signed quantity sum zero
(provided the running position matches the pending buffer, as it does
from the initial state on). -/
theorem splitAux_closed_sum : ∀ (l : List Fill) (pos : ℤ) (cur : List Fill),
    (cur.map signedQty).sum = pos →
    ∀ s ∈ (splitAux l pos cur).1, (s.map signedQty).sum = 0 := by
  intro l
  induction l with
  | nil => intro pos cur _ s hs; simp [splitAux] at hs
  | cons f rest ih =>
    intro pos cur hinv s hs
    rw [splitAux] at hs
    by_cases h : pos + signedQty f = 0 ∧ cur ++ [f] ≠ []
    · rw [if_pos h] at hs
      rcases List.mem_cons.mp hs with h1 | h1
      · subst h1
        rw [List.map_append, List.sum_append, hinv]
        simpa using h.1
      · exact ih 0 [] (by simp) s h1
    · rw [if_neg h] at hs
      refine ih (pos + signedQty f) (cur ++ [f]) ?_ s hs
      rw [List.map_append, List.sum_append, hinv]
      simp

/-- Closed segments are never empty. -/
theorem splitAux_closed_ne_nil : ∀ (l : List Fill) (pos : ℤ) (cur : List Fill),
    ∀ s ∈ (splitAux l pos cur).1, s ≠ [] := by
  intro l
  induction l with
  | nil => intro pos cur s hs; simp [splitAux] at hs
  | cons f rest ih =>
    intro pos cur s hs
    rw [splitAux] at hs
    by_cases h : pos + signedQty f = 0 ∧ cur ++ [f] ≠ []
    · rw [if_pos h] at hs
      rcases List.mem_cons.mp hs with h1 | h1
      · subst h1; exact h.2
      · exact ih 0 [] s h1
    · rw [if_neg h] at hs
      exact ih (pos + signedQty f) (cur ++ [f]) s hs

/-- The one-pass loop of the source equals emitting the closed segments
(with the configured training tag) followed by the trailing open buffer
(with the hard-coded default `"TR"` tag). -/
theorem groupTripsGo_eq (date sym : String) (chartOf : String → Option String)
    (tpfx : String) : ∀ (l : List Fill) (pos : ℤ) (cur : List Fill),
    groupTripsGo date sym chartOf tpfx l pos cur =
      ((splitAux l pos cur).1.filterMap fun s => buildRoundTrip s date sym chartOf tpfx)
      ++ (if (splitAux l pos cur).2 = [] then []
          else (buildRoundTrip (splitAux l pos cur).2 date sym chartOf "TR").toList) := by
  intro l
  induction l with
  | nil =>
    intro pos cur
    rw [groupTripsGo, splitAux]
    by_cases h : cur = [] <;> simp [h]
  | cons f rest ih =>
    intro pos cur
    rw [groupTripsGo, splitAux]
    by_cases h : pos + signedQty f = 0 ∧ cur ++ [f] ≠ []
    · simp only [if_pos h]
      rw [ih 0 []]
      obtain ⟨g0, gs, hg⟩ : ∃ g0 gs, cur ++ [f] = g0 :: gs := by
        cases hc : cur ++ [f] with
        | nil => exact absurd hc h.2
        | cons g0 gs => exact ⟨g0, gs, rfl⟩
      rw [hg, List.filterMap_cons]
      simp [buildRoundTrip]
    · simp only [if_neg h]
      exact ih (pos + signedQty f) (cur ++ [f])

/-- Net P&L of a built round trip: the rounded sum of its fills'
reported P&L (double rounding collapses). -/
theorem buildRoundTrip_net (s : List Fill) (date sym : String)
    (chartOf : String → Option String) (tpfx : String) (rt : RoundTrip)
    (h : buildRoundTrip s date sym chartOf tpfx = some rt) :
    rt.net_pnl = round2 ((s.map Fill.pnl).sum) := by
  cases s with
  | nil => simp [buildRoundTrip] at h
  | cons f0 rest =>
    rw [buildRoundTrip] at h
    cases h
    simp [buildRoundTripCore, round2_round2]

/-- Fill count of a built round trip. -/
theorem buildRoundTrip_fillCount (s : List Fill) (date sym : String)
    (chartOf : String → Option String) (tpfx : String) (rt : RoundTrip)
    (h : buildRoundTrip s date sym chartOf tpfx = some rt) :
    rt.fills = s.length := by
  cases s with
  | nil => simp [buildRoundTrip] at h
  | cons f0 rest =>
    rw [buildRoundTrip] at h
    cases h
    simp [buildRoundTripCore]

/-- Setting the id leaves every other field unchanged. -/
theorem setTripId_net (rt : RoundTrip) (i : String) : (setTripId rt i).net_pnl = rt.net_pnl := rfl

theorem setTripId_fills (rt : RoundTrip) (i : String) : (setTripId rt i).fills = rt.fills := rfl

theorem setTripId_entry_time (rt : RoundTrip) (i : String) :
    (setTripId rt i).entry_time = rt.entry_time := rfl

/-- Summing a per-trip value over the emitted trips of a filter-mapped
segment list, given the per-segment value of a built trip. -/
theorem filterMap_build_sum {M : Type} [AddCommMonoid M]
    (h : RoundTrip → M) (v : List Fill → M) (date sym : String)
    (chartOf : String → Option String) (tpfx : String) (segs : List (List Fill))
    (hne : ∀ s ∈ segs, s ≠ [])
    (hval : ∀ s ∈ segs, ∀ rt, buildRoundTrip s date sym chartOf tpfx = some rt → h rt = v s) :
    (((segs.filterMap fun s => buildRoundTrip s date sym chartOf tpfx).map h).sum)
      = (segs.map v).sum := by
  induction segs with
  | nil => simp
  | cons s t ih =>
    have hs : s ≠ [] := hne s (List.mem_cons_self s t)
    obtain ⟨f0, rest, rfl⟩ : ∃ f0 rest, s = f0 :: rest := by
      cases s with
      | nil => exact absurd rfl hs
      | cons f0 rest => exact ⟨f0, rest, rfl⟩
    have hb : buildRoundTrip (f0 :: rest) date sym chartOf tpfx
        = some (buildRoundTripCore f0 (f0 :: rest) date sym chartOf tpfx) := rfl
    rw [@List.filterMap_cons_some _ _ (fun s => buildRoundTrip s date sym chartOf tpfx) _ t _ hb]
    rw [List.map_cons, List.sum_cons, List.map_cons, List.sum_cons,
      hval _ (List.mem_cons_self _ t) _ hb,
      ih (fun x hx => hne x (List.mem_cons_of_mem _ hx))
        (fun x hx => hval x (List.mem_cons_of_mem _ hx))]

/-- Total fill count of the trips emitted for one group equals the
group's size: the scan partitions the group's fills. -/
theorem groupTrips_fills_sum (g : List Fill) (date sym : String)
    (chartOf : String → Option String) (tpfx : String) :
    ((groupTrips g date sym chartOf tpfx).map RoundTrip.fills).sum = g.length := by
  unfold groupTrips
  rw [groupTripsGo_eq]
  rw [List.map_append, List.sum_append]
  have hclosed : (((splitAux g 0 []).1.filterMap fun s =>
      buildRoundTrip s date sym chartOf tpfx).map RoundTrip.fills).sum
      = ((splitAux g 0 []).1.map List.length).sum := by
    exact filterMap_build_sum RoundTrip.fills List.length date sym chartOf tpfx _
      (splitAux_closed_ne_nil g 0 [])
      (fun s _ rt hrt => buildRoundTrip_fillCount s date sym chartOf tpfx rt hrt)
  rw [hclosed]
  have hopen : ((if (splitAux g 0 []).2 = [] then []
      else (buildRoundTrip (splitAux g 0 []).2 date sym chartOf "TR").toList).map
        RoundTrip.fills).sum = (splitAux g 0 []).2.length := by
    by_cases h : (splitAux g 0 []).2 = []
    · simp [h]
    · rw [if_neg h]
      obtain ⟨f0, rest, he⟩ : ∃ f0 rest, (splitAux g 0 []).2 = f0 :: rest := by
        cases hc : (splitAux g 0 []).2 with
        | nil => exact absurd hc h
        | cons f0 rest => exact ⟨f0, rest, rfl⟩
      rw [he]
      simp only [buildRoundTrip, Option.toList_some, List.map_cons, List.map_nil,
        List.sum_cons, List.sum_nil]
      rw [buildRoundTrip_fillCount (f0 :: rest) date sym chartOf "TR" _ (by rw [buildRoundTrip])]
      simp
  rw [hopen]
  have := splitAux_flatten g 0 []
  have hlen := congrArg List.length this
  rw [List.length_append, List.length_flatten] at hlen
  simpa using hlen

/-- Total net P&L of one group's trips equals the group's reported P&L
sum when every fill's P&L is a whole number of cents. -/
theorem groupTrips_net_sum (g : List Fill) (date sym : String)
    (chartOf : String → Option String) (tpfx : String)
    (hc : ∀ f ∈ g, QCents f.pnl) :
    ((groupTrips g date sym chartOf tpfx).map RoundTrip.net_pnl).sum
      = (g.map Fill.pnl).sum := by
  unfold groupTrips
  rw [groupTripsGo_eq]
  rw [List.map_append, List.sum_append]
  have hmem : ∀ s ∈ (splitAux g 0 []).1, ∀ f ∈ s, f ∈ g := by
    intro s hs f hf
    have hflat : f ∈ (splitAux g 0 []).1.flatten := List.mem_flatten.mpr ⟨s, hs, hf⟩
    have : f ∈ ((splitAux g 0 []).1.flatten) ++ (splitAux g 0 []).2 :=
      List.mem_append_left _ hflat
    rw [splitAux_flatten] at this
    simpa using this
  have hseg : ∀ s : List Fill, (∀ f ∈ s, f ∈ g) →
      round2 ((s.map Fill.pnl).sum) = (s.map Fill.pnl).sum := by
    intro s hsg
    refine round2_of_cents (QCents.list_sum ?_)
    intro q hq
    obtain ⟨f, hf, rfl⟩ := List.mem_map.mp hq
    exact hc f (hsg f hf)
  have hclosed : (((splitAux g 0 []).1.filterMap fun s =>
      buildRoundTrip s date sym chartOf tpfx).map RoundTrip.net_pnl).sum
      = ((splitAux g 0 []).1.map fun s => (s.map Fill.pnl).sum).sum := by
    refine filterMap_build_sum RoundTrip.net_pnl (fun s => (s.map Fill.pnl).sum)
      date sym chartOf tpfx _ (splitAux_closed_ne_nil g 0 []) ?_
    intro s hs rt hrt
    rw [buildRoundTrip_net s date sym chartOf tpfx rt hrt]
    exact hseg s (hmem s hs)
  rw [hclosed]
  have hopmem : ∀ f ∈ (splitAux g 0 []).2, f ∈ g := by
    intro f hf
    have : f ∈ ((splitAux g 0 []).1.flatten) ++ (splitAux g 0 []).2 :=
      List.mem_append_right _ hf
    rw [splitAux_flatten] at this
    simpa using this
  have hopen : ((if (splitAux g 0 []).2 = [] then []
      else (buildRoundTrip (splitAux g 0 []).2 date sym chartOf "TR").toList).map
        RoundTrip.net_pnl).sum = ((splitAux g 0 []).2.map Fill.pnl).sum := by
    by_cases h : (splitAux g 0 []).2 = []
    · simp [h]
    · rw [if_neg h]
      obtain ⟨f0, rest, he⟩ : ∃ f0 rest, (splitAux g 0 []).2 = f0 :: rest := by
        cases hc : (splitAux g 0 []).2 with
        | nil => exact absurd hc h
        | cons f0 rest => exact ⟨f0, rest, rfl⟩
      rw [he]
      simp only [buildRoundTrip, Option.toList_some, List.map_cons, List.map_nil,
        List.sum_cons, List.sum_nil]
      rw [buildRoundTrip_net (f0 :: rest) date sym chartOf "TR" _ (by rw [buildRoundTrip]),
        add_zero]
      exact hseg (f0 :: rest) (he ▸ hopmem)
  rw [hopen]
  have hflat := splitAux_flatten g 0 []
  have hsum := congrArg (fun l => (l.map Fill.pnl).sum) hflat
  simp only [List.map_append, List.sum_append] at hsum
  rw [sum_map_flatten Fill.pnl] at hsum
  simpa using hsum

/-! ### Id assignment and pipeline accounting -/

theorem assignIds_map {M : Type} (g : RoundTrip → M)
    (hg : ∀ rt i, g (setTripId rt i) = g rt) (date sym : String) :
    ∀ (n : ℕ) (l : List RoundTrip), (assignIds date sym n l).map g = l.map g := by
  intro n l
  induction l generalizing n with
  | nil => rfl
  | cons rt rest ih => rw [assignIds, List.map_cons, List.map_cons, hg, ih]

theorem assignIds_length (date sym : String) :
    ∀ (n : ℕ) (l : List RoundTrip), (assignIds date sym n l).length = l.length := by
  intro n l
  induction l generalizing n with
  | nil => rfl
  | cons rt rest ih => rw [assignIds, List.length_cons, List.length_cons, ih]

theorem assignIds_get (date sym : String) :
    ∀ (l : List RoundTrip) (n i : ℕ) (hi : i < l.length)
      (hi2 : i < (assignIds date sym n l).length),
      (assignIds date sym n l).get ⟨i, hi2⟩ = setTripId (l.get ⟨i, hi⟩) (mkId date sym (n + i)) := by
  intro l
  induction l with
  | nil => intro n i hi _; cases hi
  | cons rt rest ih =>
    intro n i hi hi2
    cases i with
    | zero => simp [assignIds]
    | succ j =>
      have hj : j < rest.length := Nat.lt_of_succ_lt_succ hi
      have hj2 : j < (assignIds date sym (n + 1) rest).length := by
        rw [assignIds_length]; exact hj
      have : (assignIds date sym n (rt :: rest)).get ⟨j + 1, hi2⟩
          = (assignIds date sym (n + 1) rest).get ⟨j, hj2⟩ := rfl
      rw [this, ih (n + 1) j hj hj2]
      have : n + 1 + j = n + (j + 1) := by omega
      rw [this]
      rfl

/-- Map-sum bookkeeping through the whole pipeline: summing any
id-insensitive per-trip value over the reconstructor's output equals
summing it over the per-group scans, group by group. -/
theorem output_map_sum {M : Type} [AddCommMonoid M] (g : RoundTrip → M)
    (hg : ∀ rt i, g (setTripId rt i) = g rt) (fills : List Fill) (date : String)
    (chartOf : String → Option String) (tpfx : String) :
    ((groupFillsIntoRoundTrips fills date chartOf tpfx).map g).sum
      = ((keyList (sortFills fills)).map fun k =>
          ((groupTrips (groupFor (sortFills fills) k) date (symOf k) chartOf tpfx).map g).sum).sum := by
  unfold groupFillsIntoRoundTrips
  rw [((List.perm_insertionSort rtLE _).map g).sum_eq]
  rw [sum_map_flatten]
  rw [List.map_map]
  simp only [Function.comp_def]
  have hsym : ∀ s ∈ symList (sortFills fills),
      ((symbolTripsSorted (sortFills fills) date chartOf tpfx s).map g).sum
        = (((keyList (sortFills fills)).filter fun k => symOf k = s).map fun k =>
            ((groupTrips (groupFor (sortFills fills) k) date (symOf k) chartOf tpfx).map g).sum).sum := by
    intro s _
    unfold symbolTripsSorted
    rw [assignIds_map g hg]
    rw [((List.perm_insertionSort rtLE _).map g).sum_eq]
    unfold tripsForSymbol
    rw [sum_map_flatten, List.map_map]
    rfl
  rw [List.map_congr_left fun s hs => hsym s hs]
  exact sum_filter_partition symOf
    (fun k => ((groupTrips (groupFor (sortFills fills) k) date (symOf k) chartOf tpfx).map g).sum)
    (keyList (sortFills fills)) (symList (sortFills fills))
    (firstOcc_nodup _) (fun k hk => (firstOcc_mem _ _).mpr (List.mem_map_of_mem symOf hk))

/-- A single group whose only fill leaves the position open emits
exactly the one open round trip, tagged with the default `"TR"`. -/
theorem groupTrips_single_open (f : Fill) (date sym : String)
    (chartOf : String → Option String) (tpfx : String) (h : signedQty f ≠ 0) :
    groupTrips [f] date sym chartOf tpfx = [buildRoundTripCore f [f] date sym chartOf "TR"] := by
  unfold groupTrips
  rw [groupTripsGo, if_neg (by simpa using fun he => absurd he h)]
  rw [groupTripsGo, if_neg (by simp)]
  rfl

/-! ### Example inputs used by concrete witnesses and counterexamples -/

/-- Example: a lone unmatched buy in a training-prefixed account. -/
def exBuyTrain : Fill :=
  { time := ⟨9, 30, 0⟩
    symbol := "A"
    side := "B"
    price := 1
    qty := 1
    route := ""
    account := "SIMA"
    liqType := ""
    ecnFee := 0
    pnl := 0 }

/-- Example: an unmatched buy on symbol `A` with a half-cent P&L. -/
def exHalfCentA : Fill :=
  { time := ⟨9, 30, 0⟩
    symbol := "A"
    side := "B"
    price := 1
    qty := 1
    route := ""
    account := "X"
    liqType := ""
    ecnFee := 0
    pnl := mkRat 1 200 }

/-- Example: an unmatched buy on symbol `C` with a half-cent P&L. -/
def exHalfCentC : Fill :=
  { time := ⟨9, 30, 0⟩
    symbol := "C"
    side := "B"
    price := 1
    qty := 1
    route := ""
    account := "X"
    liqType := ""
    ecnFee := 0
    pnl := mkRat 1 200 }

/-! ### Claim theorems -/

/-- C10: reconstruction partitions its input: the total `fills` count
over the emitted round trips equals the number of input fills, and an
empty day yields an empty round-trip list. -/
theorem rt_fill_partition (fills : List Fill) (date : String)
    (chartOf : String → Option String) (tpfx : String) :
    ((groupFillsIntoRoundTrips fills date chartOf tpfx).map RoundTrip.fills).sum = fills.length
    ∧ groupFillsIntoRoundTrips [] date chartOf tpfx = [] := by
  constructor
  · rw [output_map_sum RoundTrip.fills (fun _ _ => rfl)]
    have h1 : ∀ k ∈ keyList (sortFills fills),
        ((groupTrips (groupFor (sortFills fills) k) date (symOf k) chartOf tpfx).map
          RoundTrip.fills).sum = (groupFor (sortFills fills) k).length :=
      fun k _ => groupTrips_fills_sum _ _ _ _ _
    rw [List.map_congr_left h1]
    have h3 : ∀ k ∈ keyList (sortFills fills),
        (groupFor (sortFills fills) k).length
          = (((sortFills fills).filter fun f => fillKey f = k).map fun _ => (1 : ℕ)).sum := by
      intro k _
      rw [sum_map_one]
      rfl
    rw [List.map_congr_left h3]
    rw [sum_filter_partition fillKey (fun _ => (1 : ℕ)) (sortFills fills)
      (keyList (sortFills fills)) (firstOcc_nodup _)
      (fun f hf => (firstOcc_mem _ _).mpr (List.mem_map_of_mem fillKey hf))]
    rw [sum_map_one]
    exact (List.perm_insertionSort fillLE fills).length_eq
  · rfl

/-- C1 (amended): when every fill's reported P&L is a whole number of
cents, the sum of `net_pnl` over all emitted round trips equals
`round2` of the total reported P&L of the input fills. -/
theorem rt_pnl_conservation (fills : List Fill) (date : String)
    (chartOf : String → Option String) (tpfx : String)
    (hc : ∀ f ∈ fills, QCents f.pnl) :
    ((groupFillsIntoRoundTrips fills date chartOf tpfx).map RoundTrip.net_pnl).sum
      = round2 ((fills.map Fill.pnl).sum) := by
  have hcs : ∀ f ∈ sortFills fills, QCents f.pnl := fun f hf =>
    hc f ((List.perm_insertionSort fillLE fills).mem_iff.mp hf)
  rw [output_map_sum RoundTrip.net_pnl (fun _ _ => rfl)]
  have h1 : ∀ k ∈ keyList (sortFills fills),
      ((groupTrips (groupFor (sortFills fills) k) date (symOf k) chartOf tpfx).map
        RoundTrip.net_pnl).sum = ((groupFor (sortFills fills) k).map Fill.pnl).sum := by
    intro k _
    refine groupTrips_net_sum _ _ _ _ _ ?_
    intro f hf
    exact hcs f (List.mem_of_mem_filter hf)
  rw [List.map_congr_left h1]
  unfold groupFor
  rw [sum_filter_partition fillKey Fill.pnl (sortFills fills) (keyList (sortFills fills))
    (firstOcc_nodup _) (fun f hf => (firstOcc_mem _ _).mpr (List.mem_map_of_mem fillKey hf))]
  have hp : (List.map Fill.pnl (sortFills fills)).sum = (List.map Fill.pnl fills).sum :=
    ((List.perm_insertionSort fillLE fills).map Fill.pnl).sum_eq
  rw [hp]
  refine (round2_of_cents (QCents.list_sum ?_)).symm
  intro q hq
  obtain ⟨f, hf, rfl⟩ := List.mem_map.mp hq
  exact hc f hf

/-- C1 (counterexample): with two half-cent-P&L round trips the summed
`net_pnl` (two cent-rounded halves) differs from the rounded total. -/
theorem rt_pnl_conservation_counterexample :
    ¬ (((groupFillsIntoRoundTrips [exHalfCentA, exHalfCentC] "2026-02-10"
          (fun _ => none) "TR").map RoundTrip.net_pnl).sum
        = round2 (([exHalfCentA, exHalfCentC].map Fill.pnl).sum)) := by
  have hout := output_map_sum RoundTrip.net_pnl (fun _ _ => rfl)
    [exHalfCentA, exHalfCentC] "2026-02-10" (fun _ => none) "TR"
  have hsort : sortFills [exHalfCentA, exHalfCentC] = [exHalfCentA, exHalfCentC] := by
    simp only [sortFills, List.insertionSort, List.orderedInsert]
    rw [if_pos (show fillLE exHalfCentA exHalfCentC by simp [fillLE, exHalfCentA, exHalfCentC])]
  rw [hsort] at hout
  have hkeys : keyList [exHalfCentA, exHalfCentC] = ["A|X", "C|X"] := by decide
  rw [hkeys] at hout
  have hg1 : groupFor [exHalfCentA, exHalfCentC] "A|X" = [exHalfCentA] := by decide
  have hg2 : groupFor [exHalfCentA, exHalfCentC] "C|X" = [exHalfCentC] := by decide
  simp only [List.map_cons, List.map_nil, List.sum_cons, List.sum_nil] at hout
  rw [hg1, hg2] at hout
  rw [groupTrips_single_open exHalfCentA _ _ _ _ (by decide),
    groupTrips_single_open exHalfCentC _ _ _ _ (by decide)] at hout
  have hnet1 : (buildRoundTripCore exHalfCentA [exHalfCentA] "2026-02-10" (symOf "A|X")
      (fun _ => none) "TR").net_pnl = (1 : ℚ) / 100 := by
    have hb := buildRoundTrip_net [exHalfCentA] "2026-02-10" (symOf "A|X") (fun _ => none) "TR"
      _ (by rw [buildRoundTrip])
    rw [hb]
    have : ([exHalfCentA].map Fill.pnl).sum = mkRat 1 200 := by
      simp [exHalfCentA]
    rw [this]
    rw [round2_eval (mkRat 1 200) 1 (by rw [Rat.mkRat_eq_div]; norm_num)
      (by rw [Rat.mkRat_eq_div]; norm_num)]
    norm_num
  have hnet2 : (buildRoundTripCore exHalfCentC [exHalfCentC] "2026-02-10" (symOf "C|X")
      (fun _ => none) "TR").net_pnl = (1 : ℚ) / 100 := by
    have hb := buildRoundTrip_net [exHalfCentC] "2026-02-10" (symOf "C|X") (fun _ => none) "TR"
      _ (by rw [buildRoundTrip])
    rw [hb]
    have : ([exHalfCentC].map Fill.pnl).sum = mkRat 1 200 := by
      simp [exHalfCentC]
    rw [this]
    rw [round2_eval (mkRat 1 200) 1 (by rw [Rat.mkRat_eq_div]; norm_num)
      (by rw [Rat.mkRat_eq_div]; norm_num)]
    norm_num
  simp only [List.map_cons, List.map_nil, List.sum_cons, List.sum_nil] at hout
  rw [hnet1, hnet2] at hout
  intro hcontra
  rw [hout] at hcontra
  have hrhs : (([exHalfCentA, exHalfCentC].map Fill.pnl).sum) = mkRat 1 200 + (mkRat 1 200 + 0) := by
    simp [exHalfCentA, exHalfCentC]
  rw [hrhs] at hcontra
  rw [round2_eval (mkRat 1 200 + (mkRat 1 200 + 0)) 1
    (by rw [Rat.mkRat_eq_div]; norm_num) (by rw [Rat.mkRat_eq_div]; norm_num)] at hcontra
  norm_num at hcontra

/-- C1 witness for the amended conservation theorem: a concrete run
with whole-cent P&L where the identity holds. -/
theorem rt_pnl_conservation_witness :
    (∀ f ∈ [exBuyTrain], QCents f.pnl)
    ∧ ((groupFillsIntoRoundTrips [exBuyTrain] "2026-02-10" (fun _ => none) "TR").map
        RoundTrip.net_pnl).sum = round2 (([exBuyTrain].map Fill.pnl).sum) := by
  have hq : ∀ f ∈ [exBuyTrain], QCents f.pnl := by
    intro f hf
    rw [List.mem_singleton.mp hf]
    exact ⟨0, by simp [exBuyTrain]⟩
  exact ⟨hq, rt_pnl_conservation [exBuyTrain] "2026-02-10" (fun _ => none) "TR" hq⟩

/-- C2 (code bug evaluation): a lone open position in account `SIMA`,
reconstructed with configured training tag `SIM`, is classified `live`
even though its only account starts with `SIM` — the end-of-day
`buildRoundTrip` call drops the configured tag and uses `"TR"`. -/
theorem rt_training_tag_open_trip_bug :
    ((groupFillsIntoRoundTrips [exBuyTrain] "2026-02-10" (fun _ => none) "SIM").map
        RoundTrip.account_type = [AccountType.live])
    ∧ ((groupFillsIntoRoundTrips [exBuyTrain] "2026-02-10" (fun _ => none) "SIM").map
        RoundTrip.accounts = [["SIMA"]])
    ∧ jsStartsWith "SIMA" "SIM" = true := by
  refine ⟨by decide, by decide, by decide⟩

/-- C3: every closed per-group segment has signed quantity sum zero,
and a group's emitted trips are its closed segments followed by at most
one trailing open trip. -/
theorem rt_position_closure (fills : List Fill) (date : String)
    (chartOf : String → Option String) (tpfx : String) (k : String)
    (hk : k ∈ keyList (sortFills fills)) :
    (∀ s ∈ (splitAux (groupFor (sortFills fills) k) 0 []).1, (s.map signedQty).sum = 0)
    ∧ groupTrips (groupFor (sortFills fills) k) date (symOf k) chartOf tpfx
        = ((splitAux (groupFor (sortFills fills) k) 0 []).1.filterMap fun s =>
            buildRoundTrip s date (symOf k) chartOf tpfx)
          ++ (if (splitAux (groupFor (sortFills fills) k) 0 []).2 = [] then []
              else (buildRoundTrip (splitAux (groupFor (sortFills fills) k) 0 []).2
                date (symOf k) chartOf "TR").toList) :=
  ⟨splitAux_closed_sum _ 0 [] (by simp), groupTripsGo_eq date (symOf k) chartOf tpfx _ 0 []⟩

/-- C3 witness at a concrete one-fill day. -/
theorem rt_position_closure_witness :
    ("A|SIMA" ∈ keyList (sortFills [exBuyTrain]))
    ∧ (∀ s ∈ (splitAux (groupFor (sortFills [exBuyTrain]) "A|SIMA") 0 []).1,
        (s.map signedQty).sum = 0) :=
  ⟨by decide, (rt_position_closure [exBuyTrain] "2026-02-10" (fun _ => none) "TR" "A|SIMA"
    (by decide)).1⟩

/-- C7: reconstruction is a pure function of its inputs; equal fill
lists, dates and configuration give identical round-trip lists. -/
theorem rt_deterministic (fl1 fl2 : List Fill) (d1 d2 : String)
    (chartOf : String → Option String) (t1 t2 : String)
    (hf : fl1 = fl2) (hd : d1 = d2) (ht : t1 = t2) :
    groupFillsIntoRoundTrips fl1 d1 chartOf t1 = groupFillsIntoRoundTrips fl2 d2 chartOf t2 := by
  rw [hf, hd, ht]

/-- C7 witness at a concrete input. -/
theorem rt_deterministic_witness :
    ([exBuyTrain] = [exBuyTrain]) ∧ ("2026-02-10" = "2026-02-10") ∧ ("TR" = "TR")
    ∧ groupFillsIntoRoundTrips [exBuyTrain] "2026-02-10" (fun _ => none) "TR"
        = groupFillsIntoRoundTrips [exBuyTrain] "2026-02-10" (fun _ => none) "TR" :=
  ⟨rfl, rfl, rfl,
    rt_deterministic [exBuyTrain] [exBuyTrain] "2026-02-10" "2026-02-10"
      (fun _ => none) "TR" "TR" rfl rfl rfl⟩

/-! ### VWAP helpers and claim C5 -/

theorem entryFills_subset (s : List Fill) : ∀ f ∈ entryFills s, f ∈ s := by
  intro f hf
  cases s with
  | nil => simp [entryFills] at hf
  | cons f0 rest =>
    rw [entryFills] at hf
    exact List.mem_of_mem_filter hf

theorem exitFills_subset (s : List Fill) : ∀ f ∈ exitFills s, f ∈ s := by
  intro f hf
  cases s with
  | nil => simp [exitFills] at hf
  | cons f0 rest =>
    rw [exitFills] at hf
    exact List.mem_of_mem_filter hf

theorem sharesSum_nonneg (l : List Fill) (hq : ∀ f ∈ l, 0 < f.qty) : 0 ≤ sharesSum l := by
  induction l with
  | nil => simp [sharesSum]
  | cons f t ih =>
    rw [sharesSum, List.map_cons, List.sum_cons]
    exact add_nonneg (le_of_lt (hq f (List.mem_cons_self f t)))
      (ih fun x hx => hq x (List.mem_cons_of_mem f hx))

theorem sharesSum_pos (l : List Fill) (hne : l ≠ []) (hq : ∀ f ∈ l, 0 < f.qty) :
    0 < sharesSum l := by
  cases l with
  | nil => exact absurd rfl hne
  | cons f t =>
    rw [sharesSum, List.map_cons, List.sum_cons]
    exact add_pos_of_pos_of_nonneg (hq f (List.mem_cons_self f t))
      (sharesSum_nonneg t fun x hx => hq x (List.mem_cons_of_mem f hx))

/-- C5: entry/exit prices are the rounded quantity-weighted averages of
exactly the entry-side resp. exit-side fills, and an open position (no
exit-side fills) reports `exit_avg = 0` with `total_shares` the
entry-side quantity sum and `fills` the buffer length. -/
theorem rt_vwap_prices (seg : List Fill) (date sym : String)
    (chartOf : String → Option String) (tpfx : String)
    (hne : seg ≠ []) (hq : ∀ f ∈ seg, 0 < f.qty) :
    ∃ rt, buildRoundTrip seg date sym chartOf tpfx = some rt
      ∧ (entryFills seg ≠ [] →
          rt.entry_avg = round2 (notionalSum (entryFills seg) / (sharesSum (entryFills seg) : ℚ)))
      ∧ (exitFills seg ≠ [] →
          rt.exit_avg = round2 (notionalSum (exitFills seg) / (sharesSum (exitFills seg) : ℚ)))
      ∧ (exitFills seg = [] →
          rt.exit_avg = 0 ∧ rt.total_shares = sharesSum (entryFills seg)
            ∧ rt.fills = seg.length) := by
  obtain ⟨f0, rest, rfl⟩ : ∃ f0 rest, seg = f0 :: rest := by
    cases seg with
    | nil => exact absurd rfl hne
    | cons f0 rest => exact ⟨f0, rest, rfl⟩
  refine ⟨buildRoundTripCore f0 (f0 :: rest) date sym chartOf tpfx, rfl, ?_, ?_, ?_⟩
  · intro hent
    have hpos : 0 < sharesSum (entryFills (f0 :: rest)) :=
      sharesSum_pos _ hent fun f hf => hq f (entryFills_subset _ f hf)
    simp only [buildRoundTripCore]
    rw [if_pos hpos]
  · intro hext
    have hpos : 0 < sharesSum (exitFills (f0 :: rest)) :=
      sharesSum_pos _ hext fun f hf => hq f (exitFills_subset _ f hf)
    simp only [buildRoundTripCore]
    rw [if_pos hpos]
  · intro hempty
    have hzero : sharesSum (exitFills (f0 :: rest)) = 0 := by rw [hempty]; rfl
    have hnn : 0 ≤ sharesSum (entryFills (f0 :: rest)) :=
      sharesSum_nonneg _ fun f hf => hq f (entryFills_subset _ f hf)
    refine ⟨?_, ?_, rfl⟩
    · simp only [buildRoundTripCore]
      rw [hzero, if_neg (lt_irrefl 0)]
    · simp only [buildRoundTripCore]
      rw [hzero]
      exact max_eq_left hnn

/-- C5 witness at a concrete one-fill (open) buffer. -/
theorem rt_vwap_prices_witness :
    (([exBuyTrain] : List Fill) ≠ []) ∧ (∀ f ∈ [exBuyTrain], 0 < f.qty)
    ∧ ∃ rt, buildRoundTrip [exBuyTrain] "2026-02-10" "A" (fun _ => none) "TR" = some rt
      ∧ (entryFills [exBuyTrain] ≠ [] →
          rt.entry_avg = round2 (notionalSum (entryFills [exBuyTrain])
            / (sharesSum (entryFills [exBuyTrain]) : ℚ)))
      ∧ (exitFills [exBuyTrain] ≠ [] →
          rt.exit_avg = round2 (notionalSum (exitFills [exBuyTrain])
            / (sharesSum (exitFills [exBuyTrain]) : ℚ)))
      ∧ (exitFills [exBuyTrain] = [] →
          rt.exit_avg = 0 ∧ rt.total_shares = sharesSum (entryFills [exBuyTrain])
            ∧ rt.fills = [exBuyTrain].length) :=
  ⟨by decide, by decide,
    rt_vwap_prices [exBuyTrain] "2026-02-10" "A" (fun _ => none) "TR" (by decide) (by decide)⟩

/-! ### Ordering, numbering and claim C6 -/

theorem sorted_rtLE_iff (l : List RoundTrip) :
    List.Sorted rtLE l ↔ (l.map fun rt => timeToMinutes rt.entry_time).Pairwise (· ≤ ·) := by
  unfold List.Sorted
  rw [List.pairwise_map]
  exact Iff.rfl

theorem symbolTripsSorted_sorted (l : List Fill) (date : String)
    (chartOf : String → Option String) (tpfx s : String) :
    List.Sorted rtLE (symbolTripsSorted l date chartOf tpfx s) := by
  unfold symbolTripsSorted
  rw [sorted_rtLE_iff]
  rw [assignIds_map (fun rt => timeToMinutes rt.entry_time) (fun _ _ => rfl)]
  rw [← sorted_rtLE_iff]
  exact List.sorted_insertionSort rtLE _

/-- C6: the reconstructor's output is sorted by entry time across all
symbols, and each symbol's collected round trips are sorted by entry
time with ids `date-symbol-n`, `n` the 1-based position in that order. -/
theorem rt_output_order_and_ids (fills : List Fill) (date : String)
    (chartOf : String → Option String) (tpfx : String) :
    List.Sorted rtLE (groupFillsIntoRoundTrips fills date chartOf tpfx)
    ∧ ∀ s ∈ symList (sortFills fills),
        List.Sorted rtLE (symbolTripsSorted (sortFills fills) date chartOf tpfx s)
        ∧ ∀ (i : ℕ) (hi : i < (symbolTripsSorted (sortFills fills) date chartOf tpfx s).length),
            ((symbolTripsSorted (sortFills fills) date chartOf tpfx s).get ⟨i, hi⟩).id
              = mkId date s (i + 1) := by
  refine ⟨List.sorted_insertionSort rtLE _, ?_⟩
  intro s _
  refine ⟨symbolTripsSorted_sorted _ _ _ _ _, ?_⟩
  intro i hi
  have hi0 : i < (List.insertionSort rtLE (tripsForSymbol (sortFills fills) date chartOf tpfx s)).length := by
    have hlen := assignIds_length date s 1
      (List.insertionSort rtLE (tripsForSymbol (sortFills fills) date chartOf tpfx s))
    unfold symbolTripsSorted at hi
    omega
  have hget := assignIds_get date s
    (List.insertionSort rtLE (tripsForSymbol (sortFills fills) date chartOf tpfx s)) 1 i hi0 hi
  unfold symbolTripsSorted
  rw [hget]
  unfold setTripId
  rw [Nat.add_comm]

/-- C6 witness at a concrete one-fill day on symbol `A`. -/
theorem rt_output_order_and_ids_witness :
    ("A" ∈ symList (sortFills [exBuyTrain]))
    ∧ ((symbolTripsSorted (sortFills [exBuyTrain]) "2026-02-10" (fun _ => none) "TR" "A").get
        ⟨0, by decide⟩).id = mkId "2026-02-10" "A" 1 :=
  ⟨by decide,
    ((rt_output_order_and_ids [exBuyTrain] "2026-02-10" (fun _ => none) "TR").2 "A"
      (by decide)).2 0 (by decide)⟩

/-! ### Aggregation consistency (claim C8) -/

theorem length_eq_sign_counts (l : List RoundTrip) :
    l.length = (l.filter fun t => 0 < t.net_pnl).length + (l.filter fun t => t.net_pnl < 0).length
      + (l.filter fun t => t.net_pnl = 0).length := by
  induction l with
  | nil => rfl
  | cons a t ih =>
    rw [List.length_cons, ih, List.filter_cons, List.filter_cons, List.filter_cons]
    rcases lt_trichotomy a.net_pnl 0 with h | h | h
    · rw [if_neg (by simp only [decide_eq_true_eq]; exact not_lt.mpr (le_of_lt h)),
        if_pos (by simp only [decide_eq_true_eq]; exact h),
        if_neg (by simp only [decide_eq_true_eq]; exact ne_of_lt h)]
      simp only [List.length_cons]
      omega
    · rw [if_neg (by simp [h]), if_neg (by simp [h]), if_pos (by simp [h])]
      simp only [List.length_cons]
      omega
    · rw [if_pos (by simp only [decide_eq_true_eq]; exact h),
        if_neg (by simp only [decide_eq_true_eq]; exact not_lt.mpr (le_of_lt h)),
        if_neg (by simp only [decide_eq_true_eq]; exact ne_of_gt h)]
      simp only [List.length_cons]
      omega

/-- C8: in both daily-summary computations, `total_trades` splits into
winners, losers and breakeven, and the win rate is `0` on an empty day. -/
theorem rt_summary_consistency (date : String) (trades : List RoundTrip) :
    ((ingestSummary trades).total_trades
        = (ingestSummary trades).winners + (ingestSummary trades).losers
          + (ingestSummary trades).breakeven)
    ∧ (trades = [] → (ingestSummary trades).win_rate = 0)
    ∧ ((buildSummaryFromTrades date trades).total_trades
        = (buildSummaryFromTrades date trades).winners + (buildSummaryFromTrades date trades).losers
          + (buildSummaryFromTrades date trades).breakeven)
    ∧ (trades = [] → (buildSummaryFromTrades date trades).win_rate = 0) := by
  refine ⟨?_, ?_, ?_, ?_⟩
  · simpa [ingestSummary] using length_eq_sign_counts trades
  · rintro rfl
    simp [ingestSummary]
  · simpa [buildSummaryFromTrades] using length_eq_sign_counts trades
  · rintro rfl
    simp [buildSummaryFromTrades]

/-- C8 witness on the empty day. -/
theorem rt_summary_consistency_witness :
    (([] : List RoundTrip) = [])
    ∧ (ingestSummary []).win_rate = 0
    ∧ (buildSummaryFromTrades "2026-02-10" []).win_rate = 0 :=
  ⟨rfl, (rt_summary_consistency "2026-02-10" []).2.1 rfl,
    (rt_summary_consistency "2026-02-10" []).2.2.2 rfl⟩

/-! ### Fill normalizer (claim C9) -/

/-- Claim-side description of a malformed raw row: missing (or blank)
time, symbol or side, or non-numeric price or quantity. -/
def rowMalformed (r : RawRow) : Prop :=
  r.time = none ∨ r.symbol = none ∨ r.symbol = some "" ∨ r.side = none ∨ r.side = some ""
    ∨ r.price = none ∨ r.qty = none

instance : DecidablePred rowMalformed := fun r => by
  unfold rowMalformed
  exact inferInstance

/-- C9: the normalizer drops a row exactly when it is malformed in the
claim's sense, keeps one canonical fill for every other row, and keeps
processing the remaining rows either way. -/
theorem rt_parse_skip (rows : List RawRow) (r : RawRow) :
    parseFillsCsv rows = ((rows.filter fun x => rowKept x).map mkFillD)
    ∧ (rowKept r = true ↔ ¬ rowMalformed r)
    ∧ (rowMalformed r → parseFillsCsv (r :: rows) = parseFillsCsv rows)
    ∧ (¬ rowMalformed r → parseFillsCsv (r :: rows) = mkFillD r :: parseFillsCsv rows) := by
  have hiff : ∀ x : RawRow, rowKept x = true ↔ ¬ rowMalformed x := by
    intro x
    obtain ⟨t, sy, sd, p, q, ro, ac, lq, ec, pn⟩ := x
    unfold rowKept rowMalformed
    cases t <;> cases sy <;> cases sd <;> cases p <;> cases q <;>
      simp [Option.getD]
  have hfilter : ∀ rs : List RawRow,
      parseFillsCsv rs = ((rs.filter fun x => rowKept x).map mkFillD) := by
    intro rs
    induction rs with
    | nil => rfl
    | cons a ts ih =>
      by_cases h : rowKept a = true
      · rw [parseFillsCsv, if_pos h, List.filter_cons, if_pos h, List.map_cons, ih]
      · rw [parseFillsCsv, if_neg h, List.filter_cons, if_neg h, ih]
  refine ⟨hfilter rows, hiff r, ?_, ?_⟩
  · intro hmal
    rw [parseFillsCsv, if_neg fun hk => (hiff r).mp hk hmal]
  · intro hok
    rw [parseFillsCsv, if_pos ((hiff r).mpr hok)]

/-- Example raw row with a missing time cell. -/
def exRowMissingTime : RawRow :=
  { time := none
    symbol := some "A"
    side := some "B"
    price := some 1
    qty := some 1
    route := some ""
    account := some "X"
    liqType := some ""
    ecnFee := some 0
    pnl := some 0 }

/-- C9 witness: the row with a missing time is skipped and processing
continues. -/
theorem rt_parse_skip_witness :
    rowMalformed exRowMissingTime
    ∧ parseFillsCsv [exRowMissingTime] = parseFillsCsv [] :=
  ⟨by decide, (rt_parse_skip [] exRowMissingTime).2.2.1 (by decide)⟩

/-! ### Account breakdown (claim C4) -/

theorem filter_or_perm {α : Type} {p q : α → Prop} [DecidablePred p] [DecidablePred q]
    (l : List α) (hdisj : ∀ a ∈ l, ¬(p a ∧ q a)) :
    (l.filter fun a => p a ∨ q a).Perm ((l.filter fun a => p a) ++ (l.filter fun a => q a)) := by
  induction l with
  | nil => simp
  | cons a t ih =>
    have iht := ih fun x hx => hdisj x (List.mem_cons_of_mem a hx)
    by_cases hp : p a
    · have hq : ¬ q a := fun hqa => hdisj a (List.mem_cons_self a t) ⟨hp, hqa⟩
      rw [List.filter_cons, List.filter_cons, List.filter_cons,
        if_pos (by simp [hp]), if_pos (by simp [hp]), if_neg (by simp [hq])]
      exact iht.cons a
    · by_cases hq : q a
      · rw [List.filter_cons, List.filter_cons, List.filter_cons,
          if_pos (by simp [hq]), if_neg (by simp [hp]), if_pos (by simp [hq])]
        exact (iht.cons a).trans List.perm_middle.symm
      · rw [List.filter_cons, List.filter_cons, List.filter_cons,
          if_neg (by simp [hp, hq]), if_neg (by simp [hp]), if_neg (by simp [hq])]
        exact iht

/-- C4: the per-account-type breakdown folds mixed trades into the live
bucket for trade count, P&L, winners, losers and win rate, while the
mixed trades remain a separately countable category (the live count is
the live-only count plus the mixed count); the training bucket is
computed over exactly the training trades. -/
theorem rt_mixed_folded_into_live (trades : List RoundTrip) :
    ((computeAccountBreakdown trades).live.trades
        = (trades.filter fun t => t.account_type = AccountType.live
            ∨ t.account_type = AccountType.mixed).length)
    ∧ ((computeAccountBreakdown trades).live.trades
        = (trades.filter fun t => t.account_type = AccountType.live).length
          + (trades.filter fun t => t.account_type = AccountType.mixed).length)
    ∧ ((computeAccountBreakdown trades).live.pnl
        = round2 (((trades.filter fun t => t.account_type = AccountType.live
            ∨ t.account_type = AccountType.mixed).map RoundTrip.net_pnl).sum))
    ∧ ((computeAccountBreakdown trades).live.winners
        = ((trades.filter fun t => t.account_type = AccountType.live
            ∨ t.account_type = AccountType.mixed).filter fun t => 0 < t.net_pnl).length)
    ∧ ((computeAccountBreakdown trades).live.losers
        = ((trades.filter fun t => t.account_type = AccountType.live
            ∨ t.account_type = AccountType.mixed).filter fun t => t.net_pnl < 0).length)
    ∧ ((computeAccountBreakdown trades).live.win_rate
        = (if 0 < (trades.filter fun t => t.account_type = AccountType.live
              ∨ t.account_type = AccountType.mixed).length then
            round2 (((((trades.filter fun t => t.account_type = AccountType.live
              ∨ t.account_type = AccountType.mixed).filter fun t => 0 < t.net_pnl).length : ℚ))
              / (((trades.filter fun t => t.account_type = AccountType.live
                ∨ t.account_type = AccountType.mixed).length : ℚ)) * 100)
          else 0))
    ∧ ((computeAccountBreakdown trades).training.trades
        = (trades.filter fun t => t.account_type = AccountType.training).length)
    ∧ ((computeAccountBreakdown trades).training.pnl
        = round2 (((trades.filter fun t => t.account_type = AccountType.training).map
            RoundTrip.net_pnl).sum))
    ∧ ((computeAccountBreakdown trades).training.winners
        = ((trades.filter fun t => t.account_type = AccountType.training).filter
            fun t => 0 < t.net_pnl).length)
    ∧ ((computeAccountBreakdown trades).training.losers
        = ((trades.filter fun t => t.account_type = AccountType.training).filter
            fun t => t.net_pnl < 0).length) := by
  have hdisj : ∀ t ∈ trades,
      ¬(t.account_type = AccountType.live ∧ t.account_type = AccountType.mixed) := by
    rintro t _ ⟨h1, h2⟩
    rw [h1] at h2
    cases h2
  have hperm := filter_or_perm trades hdisj
  have hlen := hperm.length_eq
  have hpnl := (hperm.map RoundTrip.net_pnl).sum_eq
  have hwin := ((hperm.filter fun t => decide (0 < t.net_pnl))).length_eq
  have hlose := ((hperm.filter fun t => decide (t.net_pnl < 0))).length_eq
  rw [List.length_append] at hlen
  refine ⟨?_, ?_, ?_, ?_, ?_, ?_, rfl, rfl, rfl, rfl⟩
  · simp only [computeAccountBreakdown, List.length_append]
    omega
  · simp only [computeAccountBreakdown, List.length_append]
  · simp only [computeAccountBreakdown]
    rw [hpnl]
  · simp only [computeAccountBreakdown]
    rw [hwin, List.filter_append, List.length_append]
  · simp only [computeAccountBreakdown]
    rw [hlose, List.filter_append, List.length_append]
  · simp only [computeAccountBreakdown]
    rw [hwin, hlen, List.filter_append, List.length_append]

end TradeLogger
